import Mathlib

set_option maxRecDepth 20000

namespace CfgNorm

/-- Sorted enumeration of a multiset, by insertion sort (which, unlike the
library merge sort, evaluates by structural recursion). -/
def msort {α : Type} [LinearOrder α] (s : Multiset α) : List α :=
  Quot.liftOn s (fun l => l.insertionSort (· ≤ ·)) fun l1 l2 h =>
    List.eq_of_perm_of_sorted
      ((List.perm_insertionSort _ l1).trans (h.trans (List.perm_insertionSort _ l2).symm))
      (List.sorted_insertionSort _ l1) (List.sorted_insertionSort _ l2)

/-- Sorted enumeration of a finite set. -/
def fsort {α : Type} [LinearOrder α] (s : Finset α) : List α :=
  msort s.val

theorem mem_fsort {α : Type} [LinearOrder α] {s : Finset α} {a : α} :
    a ∈ fsort s ↔ a ∈ s := by
  rcases s with ⟨m, hm⟩
  refine Quot.inductionOn m (fun l => ?_) hm
  intro _
  show a ∈ l.insertionSort (· ≤ ·) ↔ _
  rw [(List.perm_insertionSort (· ≤ ·) l).mem_iff]
  simp [Finset.mem_mk, Multiset.mem_coe]

/-!
Shallow embedding of `cfgnorm.py`, a context-free-grammar normalizer.

A Python `Grammar` holds an ordered mapping from nonterminal (string) to a
set of production alternatives (tuples of symbol strings) plus a start
symbol.  The mapping order is never observable (printing sorts, analyses are
order-independent fixpoints), so we model the mapping as a finite key set
together with a total alternative function that is empty off the keys.

The constructor `Grammar.__init__` calls `move_to_end(start)`, which raises
`KeyError` when the start symbol is not a key of the mapping; we model
construction as the `Option`-valued `Grammar.make`, `none` being the raise.
-/

/-- Production alternatives are sequences of symbols; symbols are strings. -/
abbrev Alt := List String

/-- Predicate from the source helper `Grammar.stringof(s, alphabet)`: every
symbol of the sequence lies in the given alphabet.  The empty sequence
satisfies it vacuously, exactly as `all` does in Python. -/
def stringof (s : Alt) (alphabet : Finset String) : Prop :=
  ∀ x ∈ s, x ∈ alphabet

instance (s : Alt) (alphabet : Finset String) : Decidable (stringof s alphabet) :=
  List.decidableBAll _ s

/-- Model of a Python `Grammar` value: the rule mapping as key set plus
alternative function, and the start symbol. -/
structure Grammar where
  keys : Finset String
  alts : String → Finset Alt
  start : String

/-- Model of `Grammar.__init__(rules, start)`: `move_to_end(start)` raises
`KeyError` unless the start symbol is a key, hence the `Option`. -/
def Grammar.make (keys : Finset String) (alts : String → Finset Alt)
    (start : String) : Option Grammar :=
  if start ∈ keys then some ⟨keys, alts, start⟩ else none

theorem Grammar.make_of_mem {keys : Finset String} {alts : String → Finset Alt}
    {start : String} (h : start ∈ keys) :
    Grammar.make keys alts start = some ⟨keys, alts, start⟩ := by
  simp [Grammar.make, h]

/-- All symbols occurring in some alternative of some rule. -/
def Grammar.symbolsIn (g : Grammar) : Finset String :=
  g.keys.biUnion fun k => (g.alts k).biUnion fun opt => opt.toFinset

/-- Source `Grammar.nonterminals`: the keys of the rule mapping. -/
def Grammar.nonterminals (g : Grammar) : Finset String := g.keys

/-- Source `Grammar.terminals`: every symbol of a right-hand side that is not
a key of the rule mapping. -/
def Grammar.terminals (g : Grammar) : Finset String :=
  g.symbolsIn.filter fun s => s ∉ g.keys

theorem Grammar.mem_symbolsIn {g : Grammar} {k : String} {opt : Alt} {s : String}
    (hk : k ∈ g.keys) (hopt : opt ∈ g.alts k) (hs : s ∈ opt) :
    s ∈ g.symbolsIn := by
  unfold Grammar.symbolsIn
  exact Finset.mem_biUnion.2 ⟨k, hk, Finset.mem_biUnion.2 ⟨opt, hopt, List.mem_toFinset.2 hs⟩⟩

theorem Grammar.not_mem_keys_of_mem_terminals {g : Grammar} {s : String}
    (h : s ∈ g.terminals) : s ∉ g.keys := (Finset.mem_filter.1 h).2

/-- Structural equality of grammars: same start, same key set, and the same
alternative set at every key (the spec phrase for grammar equality). -/
def Grammar.streq (g h : Grammar) : Prop :=
  g.start = h.start ∧ g.keys = h.keys ∧ ∀ k ∈ g.keys, g.alts k = h.alts k

instance (g h : Grammar) : Decidable (g.streq h) := by
  unfold Grammar.streq; infer_instance

/-!
The analyses in the source are `while new != old` loops that repeat a
monotone, inflationary pass until nothing changes.  For the nullable,
reachable and unit-pair analyses each pass only adds members of a fixed
finite bound, so iterating `card bound + 1` times provably reaches the first
fixpoint of the pass, which is what the Python loops return.  (Within the
nullable pass the set being built is also consulted, which can only add
elements earlier; since both variants are iterated to a fixpoint of the same
monotone rule and stay below its least fixpoint above the seed, the returned
set is identical.)  The productive analysis is different: its accumulator is
a frozenset and the loop body raises as soon as it would grow — see
`Grammar.productiveSet` below.
-/

/-- Iterate a pass until it no longer changes, with enough fuel. -/
def fixIter {α : Type} [DecidableEq α] (f : Finset α → Finset α) :
    Nat → Finset α → Finset α
  | 0, s => s
  | n + 1, s => if f s = s then s else fixIter f n (f s)

theorem fixIter_subset {α : Type} [DecidableEq α] (f : Finset α → Finset α)
    (hf : ∀ s, s ⊆ f s) :
    ∀ (n : Nat) (s : Finset α), s ⊆ fixIter f n s := by
  intro n
  induction n with
  | zero => intro s; exact Finset.Subset.refl s
  | succ n ih =>
    intro s
    by_cases h : f s = s
    · simp [fixIter, h]
    · simp only [fixIter, if_neg h]
      exact (hf s).trans (ih (f s))

theorem fixIter_invariant {α : Type} [DecidableEq α] (f : Finset α → Finset α)
    (P : Finset α → Prop) (hP : ∀ s, P s → P (f s)) :
    ∀ (n : Nat) (s : Finset α), P s → P (fixIter f n s) := by
  intro n
  induction n with
  | zero => intro s hs; exact hs
  | succ n ih =>
    intro s hs
    by_cases h : f s = s
    · simpa [fixIter, h] using hs
    · simp only [fixIter, if_neg h]
      exact ih (f s) (hP s hs)

theorem fixIter_fixed {α : Type} [DecidableEq α] (f : Finset α → Finset α)
    (B : Finset α) (hf : ∀ s, s ⊆ f s) (hB : ∀ s, s ⊆ B → f s ⊆ B) :
    ∀ (n : Nat) (s : Finset α), s ⊆ B → B.card < n + s.card →
      f (fixIter f n s) = fixIter f n s := by
  intro n
  induction n with
  | zero =>
    intro s hs hcard
    exact absurd (Finset.card_le_card hs) (by omega)
  | succ n ih =>
    intro s hs hcard
    by_cases h : f s = s
    · simp [fixIter, h]
    · simp only [fixIter, if_neg h]
      have hss : s ⊂ f s := (Finset.ssubset_iff_of_subset (hf s)).2 (by
        rcases Finset.exists_of_ssubset ((hf s).ssubset_of_ne (Ne.symm h)) with ⟨x, hx, hnx⟩
        exact ⟨x, hx, hnx⟩)
      have hlt : s.card < (f s).card := Finset.card_lt_card hss
      exact ih (f s) (hB s hs) (by omega)

/-- One pass of `Grammar._nullable_nonterminals`: add every left-hand side
having an alternative whose symbols are all already in the set (the empty
alternative qualifies vacuously, which also covers the seeding line of the
source). -/
def nullablePass (g : Grammar) (s : Finset String) : Finset String :=
  s ∪ g.keys.filter fun lhs => ∃ opt ∈ g.alts lhs, stringof opt s

/-- Source `Grammar._nullable_nonterminals()`: iterate the pass from the
empty set until it stabilizes. -/
def Grammar.nullableSet (g : Grammar) : Finset String :=
  fixIter (nullablePass g) (g.keys.card + 1) ∅

/-- Source `Grammar._productive_symbols()`.  Unlike the other three
analyses, this one is broken in the source: `new_productive` is bound to the
cached `terminals` value, which is a frozenset.  When the terminal set is
empty, `set() == frozenset()` holds, the `while` loop never runs, and the
initial empty `productive` set is returned.  Otherwise the loop is entered
and the first pass tests every alternative against the frozen copy
`productive = deepcopy(terminals)`; as soon as some alternative is composed
entirely of terminals (the empty alternative qualifies vacuously) the loop
executes `new_productive.add(lhs)`, which raises `AttributeError` because a
frozenset has no `add` — modelled as `none`.  When no alternative
qualifies, nothing changes, the loop exits after one pass, and the returned
productive set is exactly the terminal alphabet: the set can never grow
beyond the seed. -/
def Grammar.productiveSet (g : Grammar) : Option (Finset String) :=
  if g.terminals = ∅ then some ∅
  else if ∃ lhs ∈ g.keys, ∃ opt ∈ g.alts lhs, stringof opt g.terminals then none
  else some g.terminals

/-- One pass of `Grammar._reachable_symbols`: every symbol of every
alternative of a reachable nonterminal becomes reachable. -/
def reachablePass (g : Grammar) (s : Finset String) : Finset String :=
  s ∪ (s.filter fun x => x ∈ g.keys).biUnion fun X =>
    (g.alts X).biUnion fun opt => opt.toFinset

/-- Source `Grammar._reachable_symbols()`: iterate from `{start}`. -/
def Grammar.reachableSet (g : Grammar) : Finset String :=
  fixIter (reachablePass g) ((insert g.start g.symbolsIn).card + 1) {g.start}

/-- Direct unit pairs `(lhs, Y)`: `lhs` has the one-symbol alternative
`(Y,)` with `Y` a nonterminal. -/
def unitSeed (g : Grammar) : Finset (String × String) :=
  g.keys.biUnion fun lhs =>
    (g.alts lhs).biUnion fun opt =>
      match opt with
      | [y] => if y ∈ g.keys then {(lhs, y)} else ∅
      | _ => ∅

/-- One pass of `Grammar._unit_pairs`: close the pair set under one step of
composition. -/
def unitPass (s : Finset (String × String)) : Finset (String × String) :=
  s ∪ (s ×ˢ s).biUnion fun p =>
    if p.1.2 = p.2.1 then {(p.1.1, p.2.2)} else ∅

/-- Source `Grammar._unit_pairs()`: iterate composition from the direct
pairs until stable (the transitive closure of the direct unit relation). -/
def Grammar.unitPairs (g : Grammar) : Finset (String × String) :=
  fixIter unitPass ((g.keys ×ˢ g.keys).card + 1) (unitSeed g)

theorem reachablePass_infl (g : Grammar) : ∀ s, s ⊆ reachablePass g s :=
  fun _ => Finset.subset_union_left

theorem unitPass_infl : ∀ s, s ⊆ unitPass s :=
  fun _ => Finset.subset_union_left

theorem reachablePass_bounded (g : Grammar) :
    ∀ s, s ⊆ insert g.start g.symbolsIn →
      reachablePass g s ⊆ insert g.start g.symbolsIn := by
  intro s hs
  refine Finset.union_subset hs ?_
  intro x hx
  rcases Finset.mem_biUnion.1 hx with ⟨X, hX, hx2⟩
  rcases Finset.mem_biUnion.1 hx2 with ⟨opt, hopt, hx3⟩
  rcases Finset.mem_filter.1 hX with ⟨-, hXkeys⟩
  exact Finset.mem_insert_of_mem
    (Grammar.mem_symbolsIn hXkeys hopt (List.mem_toFinset.1 hx3))

theorem unitPass_bounded (K : Finset String) :
    ∀ s, s ⊆ K ×ˢ K → unitPass s ⊆ K ×ˢ K := by
  intro s hs
  refine Finset.union_subset hs ?_
  intro p hp
  rcases Finset.mem_biUnion.1 hp with ⟨q, hq, hp2⟩
  rcases Finset.mem_product.1 hq with ⟨h1, h2⟩
  by_cases hc : q.1.2 = q.2.1
  · simp only [if_pos hc, Finset.mem_singleton] at hp2
    subst hp2
    exact Finset.mem_product.2 ⟨(Finset.mem_product.1 (hs h1)).1,
      (Finset.mem_product.1 (hs h2)).2⟩
  · simp [if_neg hc] at hp2

theorem reachableSet_fixed (g : Grammar) :
    reachablePass g g.reachableSet = g.reachableSet := by
  have hsub : ({g.start} : Finset String) ⊆ insert g.start g.symbolsIn := by
    intro x hx
    rcases Finset.mem_singleton.1 hx with rfl
    exact Finset.mem_insert_self _ _
  exact fixIter_fixed (reachablePass g) (insert g.start g.symbolsIn)
    (reachablePass_infl g) (reachablePass_bounded g) _ _ hsub
    (by simp [Finset.card_singleton]; omega)

theorem start_mem_reachableSet (g : Grammar) : g.start ∈ g.reachableSet :=
  fixIter_subset (reachablePass g) (reachablePass_infl g) _ _ (Finset.mem_singleton_self _)

/-- Fixpoint stability of reachability: the symbols of every alternative of a
reachable key are reachable. -/
theorem reachableSet_closed {g : Grammar} {X : String} (hX : X ∈ g.reachableSet)
    (hXk : X ∈ g.keys) {opt : Alt} (hopt : opt ∈ g.alts X) :
    stringof opt g.reachableSet := by
  intro x hx
  have := reachableSet_fixed g
  rw [← this]
  unfold reachablePass
  refine Finset.mem_union_right _ (Finset.mem_biUnion.2 ⟨X, ?_, ?_⟩)
  · exact Finset.mem_filter.2 ⟨hX, hXk⟩
  · exact Finset.mem_biUnion.2 ⟨opt, hopt, List.mem_toFinset.2 hx⟩

theorem unitSeed_subset (g : Grammar) : unitSeed g ⊆ g.keys ×ˢ g.keys := by
  intro p hp
  rcases Finset.mem_biUnion.1 hp with ⟨lhs, hlhs, hp2⟩
  rcases Finset.mem_biUnion.1 hp2 with ⟨opt, hopt, hp3⟩
  match opt with
  | [] => simp at hp3
  | [y] =>
    by_cases hy : y ∈ g.keys
    · simp only [if_pos hy, Finset.mem_singleton] at hp3
      subst hp3
      exact Finset.mem_product.2 ⟨hlhs, hy⟩
    · simp [if_neg hy] at hp3
  | _ :: _ :: _ => simp at hp3

theorem unitPairs_subset (g : Grammar) : g.unitPairs ⊆ g.keys ×ˢ g.keys :=
  fixIter_invariant unitPass (fun s => s ⊆ g.keys ×ˢ g.keys)
    (fun _ h => unitPass_bounded g.keys _ h) _ _ (unitSeed_subset g)

theorem unitSeed_subset_unitPairs (g : Grammar) : unitSeed g ⊆ g.unitPairs :=
  fixIter_subset unitPass unitPass_infl _ _

/-- Whenever `_productive_symbols` does return a set, that set is a subset
of the terminal alphabet (the empty set, or the terminal alphabet itself). -/
theorem productiveSet_subset_terminals {g : Grammar} {P : Finset String}
    (h : g.productiveSet = some P) : P ⊆ g.terminals := by
  unfold Grammar.productiveSet at h
  by_cases ht : g.terminals = ∅
  · rw [if_pos ht] at h
    simp only [Option.some.injEq] at h
    rw [← h]
    exact Finset.empty_subset _
  · rw [if_neg ht] at h
    by_cases he : ∃ lhs ∈ g.keys, ∃ opt ∈ g.alts lhs, stringof opt g.terminals
    · rw [if_pos he] at h
      exact absurd h (by simp)
    · rw [if_neg he] at h
      simp only [Option.some.injEq] at h
      rw [← h]

/-!
Rewrite operations.  Each builds a fresh rule mapping and finishes with the
`Grammar` constructor, i.e. `Grammar.make`.
-/

/-- Expansion step of `Grammar.without_epsilon_rules`: for one alternative,
the positions holding nullable symbols are computed and, for every proper
subset of those positions chosen to be kept (`proper_powerset`), the
alternative with the other nullable positions dropped is emitted — unless it
is empty or the single-symbol sequence containing the left-hand side. -/
def expansions (nullable : Finset String) (lhs : String) (opt : Alt) : Finset Alt :=
  let idx : Finset Nat :=
    (opt.enum.filterMap fun p => if p.2 ∈ nullable then some p.1 else none).toFinset
  (idx.powerset.erase idx).biUnion fun kept =>
    let newOpt :=
      (opt.enum.filter fun p => decide (p.2 ∉ nullable) || decide (p.1 ∈ kept)).map Prod.snd
    if newOpt ≠ [] ∧ newOpt ≠ [lhs] then {newOpt} else ∅

/-- New alternative sets of `without_epsilon_rules` before the start-symbol
fixup: the empty alternative is discarded everywhere, and all expansions are
added. -/
def epsAlts (g : Grammar) (nullable : Finset String) (lhs : String) : Finset Alt :=
  if lhs ∈ g.keys then
    ((g.alts lhs).erase []) ∪ (g.alts lhs).biUnion (expansions nullable lhs)
  else ∅

/-- Source `Grammar.without_epsilon_rules()`.  When the start symbol is
nullable a new start named start + "\x27" (ASCII apostrophe, the prime
character) is installed with exactly the alternatives `{(), (start,)}`,
overwriting any existing rule of that name. -/
def Grammar.withoutEpsilonRules (g : Grammar) : Option Grammar :=
  if g.start ∈ g.nullableSet then
    Grammar.make (insert (g.start ++ "\x27") g.keys)
      (fun k => if k = g.start ++ "\x27" then {[], [g.start]}
                else epsAlts g g.nullableSet k)
      (g.start ++ "\x27")
  else
    Grammar.make g.keys (epsAlts g g.nullableSet) g.start

/-- First loop of `Grammar.without_unit_rules`: for each unit pair `(x, y)`
in iteration order, discard the alternative `(y,)` from the rule of `x`. -/
def discardFold (alts : String → Finset Alt) (l : List (String × String)) :
    String → Finset Alt :=
  l.foldl (fun acc p k => if k = p.1 then (acc k).erase [p.2] else acc k) alts

/-- Second loop of `Grammar.without_unit_rules`: for each unit pair `(x, y)`
in iteration order, union the current rule of `y` into the rule of `x`. -/
def absorbFold (alts : String → Finset Alt) (l : List (String × String)) :
    String → Finset Alt :=
  l.foldl (fun acc p k => if k = p.1 then acc k ∪ acc p.2 else acc k) alts

/-- Source `Grammar.without_unit_rules()`, parameterized by the two
iteration orders of the unit-pair set (Python iterates a hash set, whose
order is unspecified).  The key set is unchanged. -/
def Grammar.withoutUnitRulesL (g : Grammar) (l1 l2 : List (String × String)) :
    Option Grammar :=
  Grammar.make g.keys
    (fun k => if k ∈ g.keys then absorbFold (discardFold g.alts l1) l2 k else ∅)
    g.start

/-- One concrete enumeration of the unit-pair set (sorted sweep); any list
with the same members models the Python iteration. -/
def pairList (g : Grammar) : List (String × String) :=
  (fsort g.keys).flatMap fun x =>
    (fsort g.keys).filterMap fun y =>
      if (x, y) ∈ g.unitPairs then some (x, y) else none

/-- Source `Grammar.without_unit_rules()` with the concrete enumeration. -/
def Grammar.withoutUnitRules (g : Grammar) : Option Grammar :=
  g.withoutUnitRulesL (pairList g) (pairList g)

/-- Adequacy of the concrete enumeration: `pairList` lists exactly the
members of the unit-pair set. -/
theorem mem_pairList {g : Grammar} {p : String × String} :
    p ∈ pairList g ↔ p ∈ g.unitPairs := by
  unfold pairList
  constructor
  · intro h
    rcases List.mem_flatMap.1 h with ⟨x, -, h2⟩
    rcases List.mem_filterMap.1 h2 with ⟨y, -, h3⟩
    by_cases hmem : (x, y) ∈ g.unitPairs
    · rw [if_pos hmem] at h3
      rcases Option.some.inj h3 with rfl
      exact hmem
    · rw [if_neg hmem] at h3
      cases h3
  · intro h
    have hx : p.1 ∈ g.keys := (Finset.mem_product.1 (unitPairs_subset g h)).1
    have hy : p.2 ∈ g.keys := (Finset.mem_product.1 (unitPairs_subset g h)).2
    refine List.mem_flatMap.2 ⟨p.1, mem_fsort.2 hx, ?_⟩
    refine List.mem_filterMap.2 ⟨p.2, mem_fsort.2 hy, ?_⟩
    rw [if_pos (by simpa using h)]

/-- Surviving alternatives of `Grammar.with_symbols(symbols)`: keep an
alternative when all its symbols survive. -/
def filteredAlts (g : Grammar) (symbols : Finset String) (lhs : String) :
    Finset Alt :=
  if lhs ∈ g.keys ∧ lhs ∈ symbols then
    (g.alts lhs).filter fun opt => stringof opt symbols
  else ∅

/-- Surviving keys of `Grammar.with_symbols(symbols)`: the new mapping is a
`defaultdict`, so a key appears only when at least one alternative was
added. -/
def filteredKeys (g : Grammar) (symbols : Finset String) : Finset String :=
  g.keys.filter fun lhs => lhs ∈ symbols ∧ (filteredAlts g symbols lhs).Nonempty

/-- Source `Grammar.with_symbols(symbols)`. -/
def Grammar.withSymbols (g : Grammar) (symbols : Finset String) : Option Grammar :=
  Grammar.make (filteredKeys g symbols) (filteredAlts g symbols) g.start

/-- Source `Grammar.with_productive_symbols()`: run the (fallible)
productive analysis, then filter. -/
def Grammar.withProductiveSymbols (g : Grammar) : Option Grammar :=
  g.productiveSet.bind fun p => g.withSymbols p

/-- Source `Grammar.with_reachable_symbols()`. -/
def Grammar.withReachableSymbols (g : Grammar) : Option Grammar :=
  g.withSymbols g.reachableSet

/-- Source helper `aux_format(X, i, j)` of `with_pair_rules`: the synthesized
name `X_i:j`. -/
def auxName (X : String) (i : Nat) (j : Nat) : String :=
  X ++ "_" ++ toString i ++ ":" ++ toString j

/-- Rules emitted by `with_pair_rules` for the `i`-th alternative `opt` of
`lhs`: the chain rules for `j` in `range(len(opt) - 2)` followed by the final
rule holding the last two symbols, whose key is `aux_format(lhs, i,
len(opt) - 3)` when the alternative is longer than 2. -/
def pairRulesFor (lhs : String) (i : Nat) (opt : Alt) : List (String × Alt) :=
  ((List.range (opt.length - 2)).map fun j =>
    (if j > 0 then auxName lhs i j else lhs,
     [opt.getD j "", auxName lhs i (j + 1)]))
  ++ [(if opt.length > 2 then auxName lhs i (opt.length - 3) else lhs,
       opt.drop (opt.length - 2))]

/-- All rules emitted by `with_pair_rules`, given an enumeration function for
alternative sets (the Python `enumerate` walks a hash set in unspecified
order; the emitted rule set depends on it only through the `i` indices). -/
def pairEmits (enum : Finset Alt → List Alt) (g : Grammar) : List (String × Alt) :=
  (fsort g.keys).flatMap fun lhs =>
    ((enum (g.alts lhs)).enum).flatMap fun p => pairRulesFor lhs p.1 p.2

/-- Source `Grammar.with_pair_rules()`: collect the emitted rules into a
fresh `defaultdict`. -/
def Grammar.withPairRules (enum : Finset Alt → List Alt) (g : Grammar) :
    Option Grammar :=
  Grammar.make ((pairEmits enum g).map Prod.fst).toFinset
    (fun k => ((pairEmits enum g).filterMap fun e =>
      if e.1 = k then some e.2 else none).toFinset)
    g.start

/-- Concrete enumeration of an alternative set, in sorted order. -/
def sortEnum (s : Finset Alt) : List Alt :=
  fsort s

/-- New alternative sets of `Grammar.with_unit_terminals()`: the rule
`t# -> (t,)` for every terminal `t`, plus every original alternative with
each terminal occurrence `t` replaced by `t#` — in alternatives of every
length. -/
def tagAlts (g : Grammar) (k : String) : Finset Alt :=
  ((g.terminals.filter fun t => t ++ "#" = k).image fun t => [t]) ∪
  (if k ∈ g.keys then
    (g.alts k).image fun opt =>
      opt.map fun s => if s ∈ g.terminals then s ++ "#" else s
   else ∅)

/-- New keys of `Grammar.with_unit_terminals()`: one synthesized `t#` per
terminal, plus every original key that had at least one alternative. -/
def tagKeys (g : Grammar) : Finset String :=
  (g.terminals.image fun t => t ++ "#") ∪
    (g.keys.filter fun k => (g.alts k).Nonempty)

/-- Source `Grammar.with_unit_terminals()`. -/
def Grammar.withUnitTerminals (g : Grammar) : Option Grammar :=
  Grammar.make (tagKeys g) (tagAlts g) g.start

/-- Source `Pipeline.with_useful_symbols()`: productive filter, then
reachable filter. -/
def Grammar.withUsefulSymbols (g : Grammar) : Option Grammar :=
  g.withProductiveSymbols.bind Grammar.withReachableSymbols

/-- Source `Pipeline.chomsky_normal_form()`: epsilon-elimination, then
unit-elimination, then useful symbols, then pair rules, then unit
terminals. -/
def Grammar.chomskyNormalForm (enum : Finset Alt → List Alt) (g : Grammar) :
    Option Grammar :=
  (((g.withoutEpsilonRules.bind Grammar.withoutUnitRules).bind
      Grammar.withUsefulSymbols).bind (Grammar.withPairRules enum)).bind
    Grammar.withUnitTerminals

/-- Shape demanded by Chomsky normal form, as the claim states it: every
alternative of every rule has length 1 with its symbol a terminal of the
result (not a key), or length 2 with both symbols nonterminals (keys). -/
def Grammar.cnfShape (g : Grammar) : Prop :=
  ∀ k ∈ g.keys, ∀ opt ∈ g.alts k,
    (opt.length = 1 ∧ ∀ s ∈ opt, s ∉ g.keys) ∨
    (opt.length = 2 ∧ ∀ s ∈ opt, s ∈ g.keys)

instance (g : Grammar) : Decidable g.cnfShape := by
  unfold Grammar.cnfShape; infer_instance

/-- Satisfaction of a predicate under a constructor that may have raised:
holds when the operation returned a grammar satisfying the predicate. -/
def okAnd (o : Option Grammar) (P : Grammar → Prop) : Prop :=
  match o with
  | some g => P g
  | none => False

instance (o : Option Grammar) (P : Grammar → Prop) [∀ g, Decidable (P g)] :
    Decidable (okAnd o P) :=
  match o with
  | some g => (inferInstance : Decidable (P g))
  | none => isFalse id

/-- Proposition that a constructor call raised (`KeyError`), i.e. the
operation returned no grammar. -/
def raised (o : Option Grammar) : Prop := o = none

instance (o : Option Grammar) : Decidable (raised o) :=
  match o with
  | some _ => isFalse fun h => Option.noConfusion h
  | none => isTrue rfl

/-!
Concrete grammars used to settle the claims.
-/

/-- Grammar `S -> a` (start `S`). -/
def gSingleA : Grammar :=
  ⟨{"S"}, fun k => if k = "S" then {["a"]} else ∅, "S"⟩

/-- Grammar `S -> a S b | %` (start `S`). -/
def gAnBn : Grammar :=
  ⟨{"S"}, fun k => if k = "S" then {["a", "S", "b"], []} else ∅, "S"⟩

/-- Well-formed degenerate grammar whose start symbol has an empty
alternative set. -/
def gNoAlts : Grammar := ⟨{"S"}, fun _ => ∅, "S"⟩

/-- Grammar `S -> abc` (one alternative of length 3). -/
def gAbc : Grammar := ⟨{"S"}, fun k => if k = "S" then {["a", "b", "c"]} else ∅, "S"⟩

/-- Grammar `S -> ab` (start `S`), in canonical serializable form. -/
def gAB : Grammar := ⟨{"S"}, fun k => if k = "S" then {["a", "b"]} else ∅, "S"⟩

/-- Grammar with nullable start `S` and an existing key named S + apostrophe:
`S -> %` and the primed rule `-> a`. -/
def gPrime : Grammar :=
  ⟨{"S", "S\x27"},
   fun k => if k = "S" then {[]} else if k = "S\x27" then {["a"]} else ∅,
   "S"⟩

/-- Grammar `S -> A ;; A -> a`, with one unit pair `(S, A)`. -/
def gUnit : Grammar :=
  ⟨{"S", "A"},
   fun k => if k = "S" then {["A"]} else if k = "A" then {["a"]} else ∅,
   "S"⟩

/-- The symbol-filtering step never keeps a key drawn from a set disjoint
from the keys, so the constructor raises. -/
theorem withSymbols_raises_of_disjoint (g : Grammar) (P : Finset String)
    (h : ∀ lhs ∈ g.keys, lhs ∉ P) : raised (g.withSymbols P) := by
  unfold Grammar.withSymbols Grammar.make raised
  rw [if_neg]
  intro hmem
  rcases Finset.mem_filter.1 hmem with ⟨hk, hP, -⟩
  exact h _ hk hP

/-- Helper: `with_productive_symbols` raises on every grammar.  Either the
productive analysis raises `AttributeError` (its frozenset accumulator), or
it returns a subset of the terminal alphabet, which is disjoint from the
rule keys, so the filter keeps no key and the constructor raises
`KeyError`. -/
theorem withProductiveSymbols_raises (g : Grammar) :
    raised g.withProductiveSymbols := by
  unfold Grammar.withProductiveSymbols
  cases hp : g.productiveSet with
  | none => rfl
  | some P =>
    show g.withSymbols P = none
    refine withSymbols_raises_of_disjoint g P fun lhs hk hP => ?_
    exact Grammar.not_mem_keys_of_mem_terminals
      (productiveSet_subset_terminals hp hP) hk

/-- Helper: the useful-symbols macro step (productive then reachable filter)
raises on every grammar, since its first half does. -/
theorem withUsefulSymbols_raises (g : Grammar) :
    raised g.withUsefulSymbols := by
  unfold Grammar.withUsefulSymbols
  rw [show g.withProductiveSymbols = none from withProductiveSymbols_raises g]
  rfl

/-- C1: the full CNF pipeline produces no grammar at all, for any alternative
enumeration and any input: its useful-symbols stage always raises inside
`_productive_symbols` (`new_productive` is the cached frozenset of
terminals, and the loop calls `.add` on it — `AttributeError` — as soon as
some alternative is composed entirely of terminals; otherwise the productive
set stays the terminal alphabet, the filter drops every rule key, and the
constructor raises `KeyError`).  So no run of the pipeline ever returns a
grammar whose alternatives could be inspected, and the claimed CNF shape
invariant fails; separately, even the final `with_unit_terminals` step alone
rewrites bare single-terminal alternatives into unit rules (see the
unit-terminal theorem). -/
theorem cnf_pipeline_never_returns (enum : Finset Alt → List Alt) (g : Grammar) :
    raised (Grammar.chomskyNormalForm enum g) := by
  unfold Grammar.chomskyNormalForm
  cases h : g.withoutEpsilonRules.bind Grammar.withoutUnitRules with
  | none => rfl
  | some g2 =>
    show Option.bind (Option.bind g2.withUsefulSymbols (Grammar.withPairRules enum))
      Grammar.withUnitTerminals = none
    rw [show g2.withUsefulSymbols = none from withUsefulSymbols_raises g2]
    rfl

/-- C2 counterexample: `with_pair_rules` on the well-formed grammar whose
start symbol has an empty alternative set builds a rule mapping without the
start key, so the `Grammar` constructor raises `KeyError`: the rewrite
operations are not all total. -/
theorem withPairRules_fails_on_empty_start :
    raised (Grammar.withPairRules sortEnum gNoAlts) := by
  decide

/-- C3: on the grammar `S -> abc`, `with_pair_rules` emits
`S -> (a, S_0:1)` and `S_0:0 -> (b, c)`: the synthesized helper `S_0:1`
appears on a right-hand side but never as a left-hand side, and the final
binary rule is keyed by `aux_format(lhs, i, n-3)` — one below the last
synthesized helper — so the claimed chain shape fails. -/
theorem withPairRules_chain_off_by_one :
    okAnd (Grammar.withPairRules sortEnum gAbc) fun g =>
      g.keys = {"S", "S_0:0"} ∧
      g.alts "S" = {["a", "S_0:1"]} ∧
      g.alts "S_0:0" = {["b", "c"]} ∧
      "S_0:1" ∉ g.keys := by
  decide

/-- C4: `with_unit_terminals` on the grammar `S -> a` does not leave the bare
single-terminal alternative `(a,)` alone: it rewrites it to `(a#,)`. -/
theorem withUnitTerminals_rewrites_bare_terminal :
    okAnd gSingleA.withUnitTerminals fun g =>
      g.alts "S" = {["a#"]} ∧ ["a"] ∉ g.alts "S" ∧ g.alts "a#" = {["a"]} := by
  decide

/-- C6: on `S -> a S b | %` with start `S`, epsilon-elimination yields start
S-prime with alternatives exactly `{(), (S,)}` and the rule
`S -> a S b | a b`, as the claim states. -/
theorem withoutEpsilonRules_on_aSb :
    okAnd gAnBn.withoutEpsilonRules fun g =>
      g.start = "S\x27" ∧ g.keys = {"S\x27", "S"} ∧
      g.alts "S\x27" = {[], ["S"]} ∧
      g.alts "S" = {["a", "S", "b"], ["a", "b"]} := by
  decide

/-- C8: the useful-symbols step is defined on no grammar at all, so the
claim's presupposition — that it can return a grammar which is then fed to
it again — never holds: `with_productive_symbols` raises on every input
(`AttributeError` from the frozenset accumulator of `_productive_symbols`,
or `KeyError` in the constructor after the productive filter, whose symbol
set never exceeds the terminal alphabet, has dropped every rule key), and
the macro step runs it first. -/
theorem withUsefulSymbols_never_defined (g : Grammar) :
    raised g.withUsefulSymbols :=
  withUsefulSymbols_raises g

/-!
Unit-elimination: the removal pass deletes every direct unit alternative,
and the absorption pass only unions already-unit-free sets, in any order.
-/

theorem discardFold_subset (l : List (String × String)) :
    ∀ (alts : String → Finset Alt) (k : String), discardFold alts l k ⊆ alts k := by
  induction l with
  | nil => intro alts k; exact Finset.Subset.refl _
  | cons p l ih =>
    intro alts k
    simp only [discardFold, List.foldl_cons]
    refine Finset.Subset.trans
      (ih (fun k2 => if k2 = p.1 then (alts k2).erase [p.2] else alts k2) k) ?_
    by_cases hk : k = p.1
    · simp only [if_pos hk]
      exact Finset.erase_subset _ _
    · simp only [if_neg hk]
      exact Finset.Subset.refl _

theorem discardFold_absent (l : List (String × String))
    (alts : String → Finset Alt) (k : String) (y : String)
    (h : [y] ∉ alts k) : [y] ∉ discardFold alts l k :=
  fun hmem => h (discardFold_subset l alts k hmem)

theorem discardFold_removes (l : List (String × String)) :
    ∀ (alts : String → Finset Alt) (x y : String), (x, y) ∈ l →
      [y] ∉ discardFold alts l x := by
  induction l with
  | nil => intro alts x y h; simp at h
  | cons p l ih =>
    intro alts x y h
    simp only [discardFold, List.foldl_cons]
    rcases List.mem_cons.1 h with h | h
    · rw [← h]
      exact discardFold_absent l _ x y (by simp)
    · exact ih _ x y h

/-- The rule mapping `f` has no single-nonterminal alternative (relative to
nonterminal set `K`). -/
def unitFree (K : Finset String) (f : String → Finset Alt) : Prop :=
  ∀ k ∈ K, ∀ y ∈ K, [y] ∉ f k

theorem absorbFold_unitFree (K : Finset String) (l : List (String × String)) :
    ∀ f : String → Finset Alt, (∀ p ∈ l, p.1 ∈ K ∧ p.2 ∈ K) →
      unitFree K f → unitFree K (absorbFold f l) := by
  induction l with
  | nil => intro f _ hf; exact hf
  | cons p l ih =>
    intro f hl hf
    simp only [absorbFold, List.foldl_cons]
    refine ih _ (fun q hq => hl q (List.mem_cons_of_mem p hq)) ?_
    intro k hk y hy
    by_cases hkp : k = p.1
    · simp only [if_pos hkp]
      intro hmem
      rcases Finset.mem_union.1 hmem with hmem | hmem
      · exact hf k hk y hy hmem
      · exact hf p.2 (hl p (List.mem_cons_self p l)).2 y hy hmem
    · simp only [if_neg hkp]
      exact hf k hk y hy

theorem mem_unitSeed {g : Grammar} {x y : String} (hx : x ∈ g.keys)
    (hy : y ∈ g.keys) (hmem : [y] ∈ g.alts x) : (x, y) ∈ unitSeed g := by
  unfold unitSeed
  refine Finset.mem_biUnion.2 ⟨x, hx, Finset.mem_biUnion.2 ⟨[y], hmem, ?_⟩⟩
  simp [hy]

/-- C5: whatever the iteration orders of the computed unit-pair set, the
result of `without_unit_rules` contains no alternative of length 1 whose
symbol is a nonterminal of the result (the key set is unchanged, all direct
unit alternatives are removed before absorption starts, and absorption only
unions sets that are already unit-free). -/
theorem withoutUnitRules_no_unit_alternatives (g : Grammar)
    (l1 l2 : List (String × String)) (hwf : g.start ∈ g.keys)
    (h1 : ∀ p, p ∈ l1 ↔ p ∈ g.unitPairs)
    (h2 : ∀ p, p ∈ l2 ↔ p ∈ g.unitPairs) :
    okAnd (g.withoutUnitRulesL l1 l2) fun g2 =>
      ∀ k ∈ g2.keys, ∀ opt ∈ g2.alts k, ¬ ∃ y, opt = [y] ∧ y ∈ g2.keys := by
  unfold Grammar.withoutUnitRulesL
  rw [Grammar.make_of_mem hwf]
  rintro k hk opt hopt ⟨y, rfl, hy⟩
  change [y] ∈ (if k ∈ g.keys then absorbFold (discardFold g.alts l1) l2 k else ∅) at hopt
  rw [if_pos hk] at hopt
  have hfree : unitFree g.keys (discardFold g.alts l1) := by
    intro k2 hk2 y2 hy2
    by_cases hmem : [y2] ∈ g.alts k2
    · exact discardFold_removes l1 g.alts k2 y2
        ((h1 (k2, y2)).2 (unitSeed_subset_unitPairs g (mem_unitSeed hk2 hy2 hmem)))
    · exact discardFold_absent l1 g.alts k2 y2 hmem
  have habs : unitFree g.keys (absorbFold (discardFold g.alts l1) l2) := by
    refine absorbFold_unitFree g.keys l2 _ (fun p hp => ?_) hfree
    have := Finset.mem_product.1 (unitPairs_subset g ((h2 p).1 hp))
    exact this
  exact habs k hk y hy hopt

/-- C5 witness: the unit-elimination theorem applied to the concrete grammar
`S -> A ;; A -> a`, whose unit-pair set is exactly `{(S, A)}`. -/
theorem withoutUnitRules_no_unit_alternatives_witness :
    gUnit.start ∈ gUnit.keys ∧
    (∀ p, p ∈ [("S", "A")] ↔ p ∈ gUnit.unitPairs) ∧
    okAnd (gUnit.withoutUnitRulesL [("S", "A")] [("S", "A")]) fun g2 =>
      ∀ k ∈ g2.keys, ∀ opt ∈ g2.alts k, ¬ ∃ y, opt = [y] ∧ y ∈ g2.keys := by
  have hmem : ∀ p, p ∈ [("S", "A")] ↔ p ∈ gUnit.unitPairs := by
    intro p
    have h : gUnit.unitPairs = {("S", "A")} := by decide
    rw [h]
    simp
  exact ⟨by decide, hmem,
    withoutUnitRules_no_unit_alternatives gUnit _ _ (by decide) hmem hmem⟩

/-- C10: when the start symbol is nullable and the grammar already contains
a key named start-plus-apostrophe, `without_epsilon_rules` installs that name
as the new start, replaces its entire alternative set with exactly
`{(), (start,)}` (the original alternatives are discarded by plain
assignment, no freshness check), and the key set is unchanged. -/
theorem withoutEpsilonRules_overwrites_existing_prime (g : Grammar)
    (hnul : g.start ∈ g.nullableSet) (hex : g.start ++ "\x27" ∈ g.keys) :
    okAnd g.withoutEpsilonRules fun g2 =>
      g2.start = g.start ++ "\x27" ∧ g2.keys = g.keys ∧
      g2.alts (g.start ++ "\x27") = {[], [g.start]} := by
  unfold Grammar.withoutEpsilonRules
  rw [if_pos hnul, Grammar.make_of_mem (Finset.mem_insert_self _ _)]
  exact ⟨rfl, Finset.insert_eq_self.2 hex, if_pos rfl⟩

/-- C10 witness: the overwrite theorem applied to the grammar `S -> %` with
an existing primed rule `-> a`. -/
theorem withoutEpsilonRules_overwrites_existing_prime_witness :
    gPrime.start ∈ gPrime.nullableSet ∧ gPrime.start ++ "\x27" ∈ gPrime.keys ∧
    okAnd gPrime.withoutEpsilonRules fun g2 =>
      g2.start = gPrime.start ++ "\x27" ∧ g2.keys = gPrime.keys ∧
      g2.alts (gPrime.start ++ "\x27") = {[], [gPrime.start]} :=
  ⟨by decide, by decide,
    withoutEpsilonRules_overwrites_existing_prime gPrime (by decide) (by decide)⟩

/-!
Totality of the rewrite operations: which operations can raise, and when.
-/

theorem okAnd_make {keys : Finset String} {alts : String → Finset Alt}
    {start : String} {P : Grammar → Prop} (h : start ∈ keys)
    (hP : P ⟨keys, alts, start⟩) : okAnd (Grammar.make keys alts start) P := by
  rw [Grammar.make_of_mem h]
  exact hP

theorem mem_sortEnum {s : Finset Alt} {a : Alt} : a ∈ sortEnum s ↔ a ∈ s :=
  mem_fsort

theorem start_mem_filteredKeys_reachable (g : Grammar) (hwf : g.start ∈ g.keys)
    (hne : (g.alts g.start).Nonempty) :
    g.start ∈ filteredKeys g g.reachableSet := by
  rcases hne with ⟨opt, hopt⟩
  refine Finset.mem_filter.2 ⟨hwf, start_mem_reachableSet g, ⟨opt, ?_⟩⟩
  unfold filteredAlts
  rw [if_pos ⟨hwf, start_mem_reachableSet g⟩]
  exact Finset.mem_filter.2
    ⟨hopt, reachableSet_closed (start_mem_reachableSet g) hwf hopt⟩

theorem mem_pairRulesFor_fst (lhs : String) (i : Nat) (opt : Alt) :
    ∃ e ∈ pairRulesFor lhs i opt, e.1 = lhs := by
  unfold pairRulesFor
  by_cases hlen : opt.length > 2
  · refine ⟨(lhs, [opt.getD 0 "", auxName lhs i 1]), List.mem_append_left _ ?_, rfl⟩
    have h0 : (0 : Nat) ∈ List.range (opt.length - 2) :=
      List.mem_range.2 (by omega)
    have := List.mem_map_of_mem
      (fun j => (if j > 0 then auxName lhs i j else lhs,
        ([opt.getD j "", auxName lhs i (j + 1)] : Alt))) h0
    simpa using this
  · refine ⟨(lhs, opt.drop (opt.length - 2)), List.mem_append_right _ ?_, rfl⟩
    simp [hlen]

theorem start_mem_pairEmits_keys (g : Grammar) (hwf : g.start ∈ g.keys)
    (hne : (g.alts g.start).Nonempty) :
    g.start ∈ ((pairEmits sortEnum g).map Prod.fst).toFinset := by
  rcases hne with ⟨opt, hopt⟩
  have hmem : opt ∈ sortEnum (g.alts g.start) := mem_sortEnum.2 hopt
  rcases List.get?_of_mem hmem with ⟨i, hi⟩
  have hienum : (i, opt) ∈ (sortEnum (g.alts g.start)).enum :=
    List.mk_mem_enum_iff_getElem?.2 (by rw [← List.get?_eq_getElem?]; exact hi)
  rcases mem_pairRulesFor_fst g.start i opt with ⟨e, he, hefst⟩
  refine List.mem_toFinset.2 (List.mem_map.2 ⟨e, ?_, hefst⟩)
  unfold pairEmits
  refine List.mem_flatMap.2 ⟨g.start, mem_fsort.2 hwf, ?_⟩
  exact List.mem_flatMap.2 ⟨(i, opt), hienum, he⟩

/-- C2 amended: `without_epsilon_rules` and `without_unit_rules` are total on
every well-formed grammar (start symbol a key) and keep the start symbol a
key; `with_reachable_symbols`, `with_pair_rules` and `with_unit_terminals`
succeed and keep the start symbol a key whenever the start symbol has at
least one alternative (and raise `KeyError` on degenerate inputs such as a
start symbol with an empty alternative set, see the counterexample); and
`with_productive_symbols` raises on every input. -/
theorem rewrite_ops_conditional_totality (g : Grammar) (hwf : g.start ∈ g.keys) :
    (okAnd g.withoutEpsilonRules fun g2 => g2.start ∈ g2.keys) ∧
    (okAnd g.withoutUnitRules fun g2 => g2.start ∈ g2.keys) ∧
    ((g.alts g.start).Nonempty →
      (okAnd g.withReachableSymbols fun g2 => g2.start ∈ g2.keys) ∧
      (okAnd (Grammar.withPairRules sortEnum g) fun g2 => g2.start ∈ g2.keys) ∧
      (okAnd g.withUnitTerminals fun g2 => g2.start ∈ g2.keys)) ∧
    raised g.withProductiveSymbols := by
  refine ⟨?_, ?_, fun hne => ⟨?_, ?_, ?_⟩, ?_⟩
  · unfold Grammar.withoutEpsilonRules
    by_cases hnul : g.start ∈ g.nullableSet
    · rw [if_pos hnul]
      exact okAnd_make (Finset.mem_insert_self _ _) (Finset.mem_insert_self _ _)
    · rw [if_neg hnul]
      exact okAnd_make hwf hwf
  · unfold Grammar.withoutUnitRules Grammar.withoutUnitRulesL
    exact okAnd_make hwf hwf
  · unfold Grammar.withReachableSymbols Grammar.withSymbols
    have h := start_mem_filteredKeys_reachable g hwf hne
    exact okAnd_make h h
  · unfold Grammar.withPairRules
    have h := start_mem_pairEmits_keys g hwf hne
    exact okAnd_make h h
  · unfold Grammar.withUnitTerminals
    have h : g.start ∈ tagKeys g :=
      Finset.mem_union_right _ (Finset.mem_filter.2 ⟨hwf, hne⟩)
    exact okAnd_make h h
  · exact withProductiveSymbols_raises g

/-- C2 witness: the conditional totality theorem applied to the grammar
`S -> a`, which satisfies every hypothesis. -/
theorem rewrite_ops_conditional_totality_witness :
    gSingleA.start ∈ gSingleA.keys ∧
    (gSingleA.alts gSingleA.start).Nonempty ∧
    (okAnd gSingleA.withoutEpsilonRules fun g2 => g2.start ∈ g2.keys) ∧
    (okAnd gSingleA.withoutUnitRules fun g2 => g2.start ∈ g2.keys) ∧
    (okAnd gSingleA.withReachableSymbols fun g2 => g2.start ∈ g2.keys) ∧
    (okAnd (Grammar.withPairRules sortEnum gSingleA) fun g2 => g2.start ∈ g2.keys) ∧
    (okAnd gSingleA.withUnitTerminals fun g2 => g2.start ∈ g2.keys) ∧
    raised gSingleA.withProductiveSymbols := by
  have h := rewrite_ops_conditional_totality gSingleA (by decide)
  have hne : (gSingleA.alts gSingleA.start).Nonempty := by decide
  exact ⟨by decide, hne, h.1, h.2.1, (h.2.2.1 hne).1, (h.2.2.1 hne).2.1,
    (h.2.2.1 hne).2.2, h.2.2.2⟩

/-!
Serialization boundary: `Grammar.from_string` and `Grammar.to_string`.
Python strings are modelled as `List Char`, with the string operations the
source uses (`strip`, `split`, `partition`) implemented on them.
-/

/-- Python `str.strip()`: drop leading and trailing whitespace (modelled for
the ASCII whitespace characters, which is all the notation uses). -/
def pyStrip (s : List Char) : List Char :=
  ((s.dropWhile Char.isWhitespace).reverse.dropWhile Char.isWhitespace).reverse

/-- Python `s.split(sep)` for a two-character separator: fields between
non-overlapping occurrences, scanning left to right; empty fields are
kept. -/
def splitOnTwo (a b : Char) : List Char → List (List Char)
  | [] => [[]]
  | [c] => [[c]]
  | c :: d :: rest =>
    if c = a ∧ d = b then [] :: splitOnTwo a b rest
    else
      match splitOnTwo a b (d :: rest) with
      | [] => [[c]]
      | r :: rs => (c :: r) :: rs

/-- Python `s.split(sep)` for a one-character separator. -/
def splitOnOne (sep : Char) : List Char → List (List Char)
  | [] => [[]]
  | c :: rest =>
    if c = sep then [] :: splitOnOne sep rest
    else
      match splitOnOne sep rest with
      | [] => [[c]]
      | r :: rs => (c :: r) :: rs

/-- Python `s.partition(sep)` for a two-character separator: the text before
the first occurrence, whether one occurs, and the text after it (both empty
when it does not occur). -/
def partitionTwo (a b : Char) : List Char → List Char × Bool × List Char
  | [] => ([], false, [])
  | [c] => ([c], false, [])
  | c :: d :: rest =>
    if c = a ∧ d = b then ([], true, rest)
    else
      match partitionTwo a b (d :: rest) with
      | (pre, f, post) => (c :: pre, f, post)

/-- Failures of `Grammar.from_string`: the `ValueError` for a record with
nothing after `->` (carrying the record index and its stripped text), and
the constructor `KeyError` (start is Python `None` when no record was
processed). -/
inductive ParseErr where
  | noArrow (idx : Nat) (line : List Char)
  | keyError
deriving DecidableEq

/-- Parse one alternative token of a right-hand side: strip it; `%` denotes
the empty alternative; any other text is the tuple of its characters, each a
one-character symbol. -/
def parseOption (s : List Char) : Alt :=
  let o := pyStrip s
  if o = ['%'] then [] else o.map fun c => String.mk [c]

/-- Loop of `Grammar.from_string`: walk the enumerated records, skip blank
ones, raise on a non-blank record with nothing after its first `->`, and
accumulate the rule mapping and the first left-hand side as start.  At the
end the `Grammar` constructor runs. -/
def parseLoop : List (Nat × List Char) → Finset String →
    (String → Finset Alt) → Option String → Except ParseErr Grammar
  | [], _, _, none => .error .keyError
  | [], ks, f, some st =>
    match Grammar.make ks f st with
    | some g => .ok g
    | none => .error .keyError
  | (i, raw) :: rest, ks, f, st =>
    let line := pyStrip raw
    if line = [] then parseLoop rest ks f st
    else
      let pr := partitionTwo '-' '>' line
      if pr.2.2 = [] then .error (.noArrow i line)
      else
        let lhs := String.mk (pyStrip pr.1)
        let opts := (splitOnOne '|' (pyStrip pr.2.2)).map parseOption
        parseLoop rest (insert lhs ks)
          (fun k => if k = lhs then f k ∪ opts.toFinset else f k)
          (some (st.getD lhs))

/-- Source `Grammar.from_string(s)`: split on `;;` and process the records
in order. -/
def fromString (s : List Char) : Except ParseErr Grammar :=
  parseLoop (splitOnTwo ';' ';' s).enum ∅ (fun _ => ∅) none

/-- Serialization of one rule, from `Grammar.to_string`: alternatives in
sorted order joined by `" | "`, the symbols of an alternative joined by
`" "`, `%` for the empty alternative, and the record tail `" ;;\n"`. -/
def formatRule (lhs : String) (rhs : Finset Alt) : String :=
  lhs ++ " -> " ++
    String.intercalate " | "
      ((fsort rhs).map fun opt =>
        if opt = [] then "%" else String.intercalate " " opt) ++
    " ;;\n"

/-- Source `Grammar.to_string()`: the start rule first, then the remaining
rules in sorted key order. -/
def Grammar.toText (g : Grammar) : String :=
  formatRule g.start (g.alts g.start) ++
    String.join ((fsort (g.keys.erase g.start)).map fun lhs =>
      formatRule lhs (g.alts lhs))

/-- Satisfaction of a predicate by a successful parse. -/
def parsedAnd (e : Except ParseErr Grammar) (P : Grammar → Prop) : Prop :=
  match e with
  | .ok g => P g
  | .error _ => False

instance (e : Except ParseErr Grammar) (P : Grammar → Prop)
    [∀ g, Decidable (P g)] : Decidable (parsedAnd e P) :=
  match e with
  | .ok g => (inferInstance : Decidable (P g))
  | .error _ => isFalse id

/-- Proposition that a parse raised the malformed-record error with the
given index and text. -/
def errNoArrow (e : Except ParseErr Grammar) (i : Nat) (line : List Char) : Prop :=
  match e with
  | .ok _ => False
  | .error err => err = ParseErr.noArrow i line

instance (e : Except ParseErr Grammar) (i : Nat) (line : List Char) :
    Decidable (errNoArrow e i line) :=
  match e with
  | .ok _ => isFalse id
  | .error err => (inferInstance : Decidable (err = ParseErr.noArrow i line))

/-- C7: serializing the canonical-form grammar `S -> ab` and parsing the
result does not return a structurally equal grammar: `to_string` joins the
symbols with spaces (`"S -> a b ;;"`), and `from_string` reads every
character of an alternative as a symbol, so the space characters come back
as symbols. -/
theorem roundtrip_not_structurally_equal :
    parsedAnd (fromString gAB.toText.data) fun g =>
      g.start = "S" ∧ g.alts "S" = {["a", " ", "b"]} ∧ ¬ g.streq gAB := by
  decide

/-- C9 counterexample: the input `S->` is a record that does contain the
separator `->` (its partition finds an occurrence), yet `from_string`
raises the malformed-record error for it, because the source checks whether
the text after the first `->` is empty, not whether `->` is absent. -/
theorem fromString_raises_though_arrow_present :
    errNoArrow (fromString "S->".data) 0 "S->".data ∧
    (partitionTwo '-' '>' (pyStrip "S->".data)).2.1 = true := by
  decide

/-- Record on which the loop of `from_string` raises the malformed-record
error: non-blank, with nothing after the first `->` of its stripped text
(which covers a record with no `->` at all, since `partition` then returns
an empty remainder). -/
def badRecord (raw : List Char) : Prop :=
  pyStrip raw ≠ [] ∧ (partitionTwo '-' '>' (pyStrip raw)).2.2 = []

instance (raw : List Char) : Decidable (badRecord raw) := by
  unfold badRecord; infer_instance

theorem parseLoop_noArrow_iff (recs : List (Nat × List Char)) :
    ∀ (ks : Finset String) (f : String → Finset Alt) (st : Option String),
      ((∃ i line, parseLoop recs ks f st = .error (.noArrow i line)) ↔
        ∃ p ∈ recs, badRecord p.2) ∧
      (∀ i line, parseLoop recs ks f st = .error (.noArrow i line) →
        ∃ raw, (i, raw) ∈ recs ∧ line = pyStrip raw ∧ badRecord raw) := by
  induction recs with
  | nil =>
    intro ks f st
    have himp : ∀ i line, parseLoop [] ks f st = .error (.noArrow i line) → False := by
      intro i line h
      cases st with
      | none => simp [parseLoop] at h
      | some st0 =>
        cases hm : Grammar.make ks f st0 with
        | none => simp [parseLoop, hm] at h
        | some g => simp [parseLoop, hm] at h
    constructor
    · constructor
      · rintro ⟨i, line, h⟩
        exact absurd h (fun h2 => himp i line h2)
      · rintro ⟨p, hp, -⟩
        simp at hp
    · intro i line h
      exact absurd h (fun h2 => himp i line h2)
  | cons hd rest ih =>
    rcases hd with ⟨i0, raw⟩
    intro ks f st
    by_cases hblank : pyStrip raw = []
    · have hred : parseLoop ((i0, raw) :: rest) ks f st = parseLoop rest ks f st := by
        simp [parseLoop, hblank]
      have hbad : ¬ badRecord raw := fun hb => hb.1 hblank
      constructor
      · rw [hred]
        refine ((ih ks f st).1).trans ?_
        constructor
        · rintro ⟨p, hp, hbp⟩
          exact ⟨p, List.mem_cons_of_mem _ hp, hbp⟩
        · rintro ⟨p, hp, hbp⟩
          rcases List.mem_cons.1 hp with rfl | hp
          · exact absurd hbp hbad
          · exact ⟨p, hp, hbp⟩
      · intro i line h
        rw [hred] at h
        rcases (ih ks f st).2 i line h with ⟨raw2, hmem, heq, hb⟩
        exact ⟨raw2, List.mem_cons_of_mem _ hmem, heq, hb⟩
    · by_cases harrow : (partitionTwo '-' '>' (pyStrip raw)).2.2 = []
      · have hred : parseLoop ((i0, raw) :: rest) ks f st =
            .error (.noArrow i0 (pyStrip raw)) := by
          simp [parseLoop, hblank, harrow]
        have hbad : badRecord raw := ⟨hblank, harrow⟩
        constructor
        · constructor
          · intro
            exact ⟨(i0, raw), List.mem_cons_self _ _, hbad⟩
          · intro
            exact ⟨i0, pyStrip raw, hred⟩
        · intro i line h
          rw [hred] at h
          simp only [Except.error.injEq, ParseErr.noArrow.injEq] at h
          rcases h with ⟨rfl, rfl⟩
          exact ⟨raw, List.mem_cons_self _ _, rfl, hbad⟩
      · have hred : parseLoop ((i0, raw) :: rest) ks f st =
            parseLoop rest
              (insert (String.mk (pyStrip (partitionTwo '-' '>' (pyStrip raw)).1)) ks)
              (fun k =>
                if k = String.mk (pyStrip (partitionTwo '-' '>' (pyStrip raw)).1)
                then f k ∪ ((splitOnOne '|'
                  (pyStrip (partitionTwo '-' '>' (pyStrip raw)).2.2)).map
                    parseOption).toFinset
                else f k)
              (some (st.getD (String.mk (pyStrip (partitionTwo '-' '>' (pyStrip raw)).1)))) := by
          simp [parseLoop, hblank, harrow]
        have hbad : ¬ badRecord raw := fun hb => harrow hb.2
        constructor
        · rw [hred]
          refine ((ih _ _ _).1).trans ?_
          constructor
          · rintro ⟨p, hp, hbp⟩
            exact ⟨p, List.mem_cons_of_mem _ hp, hbp⟩
          · rintro ⟨p, hp, hbp⟩
            rcases List.mem_cons.1 hp with rfl | hp
            · exact absurd hbp hbad
            · exact ⟨p, hp, hbp⟩
        · intro i line h
          rw [hred] at h
          rcases (ih _ _ _).2 i line h with ⟨raw2, hmem, heq, hb⟩
          exact ⟨raw2, List.mem_cons_of_mem _ hmem, heq, hb⟩

/-- C9 amended: `from_string` raises the malformed-record `ValueError` iff
some non-blank record of the input has no text at all after its first `->`
— in particular when it lacks `->`, but also when `->` ends the record —
and the raised error carries the index and the (stripped) text of such a
record of the input.  (An input with no non-blank record at all instead
raises `KeyError` in the constructor.) -/
theorem fromString_noArrow_error_iff (s : List Char) :
    ((∃ i line, fromString s = .error (.noArrow i line)) ↔
      ∃ p ∈ (splitOnTwo ';' ';' s).enum, badRecord p.2) ∧
    (∀ i line, fromString s = .error (.noArrow i line) →
      ∃ raw, (i, raw) ∈ (splitOnTwo ';' ';' s).enum ∧ line = pyStrip raw ∧
        badRecord raw) :=
  parseLoop_noArrow_iff (splitOnTwo ';' ';' s).enum ∅ (fun _ => ∅) none

/-- C9 witness: the characterization applied to the concrete input `S->`,
whose single record is bad. -/
theorem fromString_noArrow_error_iff_witness :
    ∃ i line, fromString "S->".data = .error (.noArrow i line) :=
  (fromString_noArrow_error_iff "S->".data).1.mpr
    ⟨(0, "S->".data), by decide, by decide⟩

end CfgNorm
